import Mathlib

/-!
Verification of the TestGenius work-item-to-test-case pipeline.

Shallow embedding of the pipeline's pure core, translated from the
TypeScript sources:
  * `src/lib/azure-devops-api.ts` — priority mapping, HTML escaping,
    step-XML serialisation, entity decoding, upload error messages;
  * `src/app/page.tsx` — the merge engine of `performAiGeneration` and the
    upload orchestration loop of `handleUploadTestCases`;
  * `src/ai/flows/generate-test-cases.ts` — the code-fence stripping done
    on the model's response before JSON parsing.

Strings are modelled as `List Char` (`Str`) so that the JavaScript string
primitives (`replace`, `split`, `trim`, …) become ordinary recursive
functions amenable to proof.
-/

set_option maxRecDepth 10000

namespace TestGenius

/-- Strings as character lists, the carrier for all JS string operations. -/
abbrev Str := List Char

/-- The JS `\s` whitespace class restricted to its ASCII members (space,
tab, newline, carriage return, vertical tab, form feed); all inputs in this
development are ASCII. Also used for `String.prototype.trim`. -/
def isJsWs (c : Char) : Bool :=
  c == ' ' || c == '\t' || c == '\n' || c == '\r' || c == '\x0b' || c == '\x0c'

/-- Leading-whitespace removal (the first half of JS `trim`). -/
def jsTrimStart (s : Str) : Str := s.dropWhile isJsWs

/-- Trailing-whitespace removal (the second half of JS `trim`). -/
def jsTrimEnd (s : Str) : Str := (s.reverse.dropWhile isJsWs).reverse

/-- JS `String.prototype.trim`. -/
def jsTrim (s : Str) : Str := jsTrimEnd (jsTrimStart s)

/-- JS `s.split('\n')`: splits at every newline, keeping empty segments. -/
def splitOnNl : Str → List Str
  | [] => [[]]
  | c :: rest =>
    if c = '\n' then [] :: splitOnNl rest
    else
      match splitOnNl rest with
      | [] => [[c]]
      | seg :: segs => (c :: seg) :: segs

/-- JS `s.replace(/c/g, r)` for a single-character pattern `c`. -/
def replaceChar (c : Char) (r : Str) : Str → Str
  | [] => []
  | x :: xs => if x = c then r ++ replaceChar c r xs else x :: replaceChar c r xs

/-- Whether `pat` occurs as a contiguous substring of `s`. -/
def containsSub (pat : Str) : Str → Bool
  | [] => pat.isEmpty
  | c :: rest => pat.isPrefixOf (c :: rest) || containsSub pat rest

/-- Fuelled worker for `replaceSub`; the fuel only serves structural
recursion and `replaceSub` always supplies enough of it. -/
def replaceSubAux (p : Char) (ps rep : Str) : Nat → Str → Str
  | 0, s => s
  | _ + 1, [] => []
  | fuel + 1, c :: rest =>
    if (p :: ps).isPrefixOf (c :: rest) then
      rep ++ replaceSubAux p ps rep fuel (rest.drop ps.length)
    else
      c :: replaceSubAux p ps rep fuel rest

/-- JS `s.replace(pat, rep)` with the `g` flag for a literal, non-empty
pattern `p :: ps`: leftmost, non-overlapping matches are replaced and the
replacement text is not rescanned. -/
def replaceSub (p : Char) (ps rep : Str) (s : Str) : Str :=
  replaceSubAux p ps rep s.length s

/- ### Data model (`src/types`, `generate-test-cases.ts`) -/

/-- `uploadStatus ∈ {pending, success, failed}` of a `TestCase`. -/
inductive UploadStatus where
  | pending
  | success
  | failed
deriving DecidableEq, Repr

/-- The `TestCase` record of the app's state (src/types): identity, editable
content, and upload bookkeeping. -/
structure TestCase where
  id : String
  title : String
  priority : String
  description : String
  expectedResult : String
  azureDevOpsId : Option Nat := none
  azureDevOpsUrl : Option String := none
  uploadStatus : UploadStatus := .pending
  uploadError : Option String := none
deriving DecidableEq, Repr

/-- A freshly generated test case as validated by the zod `TestCaseSchema`
of `generate-test-cases.ts`: only the five content fields, no upload state. -/
structure GenTestCase where
  id : String
  title : String
  priority : String
  description : String
  expectedResult : String
deriving DecidableEq, Repr

/-- The JS spread `{...newTc, uploadStatus: 'pending'}` applied to a
generated test case: the five content fields are copied and every upload
field is absent (`none`) except the status, which is `pending`. -/
def pend (g : GenTestCase) : TestCase :=
  { id := g.id, title := g.title, priority := g.priority,
    description := g.description, expectedResult := g.expectedResult,
    azureDevOpsId := none, azureDevOpsUrl := none,
    uploadStatus := .pending, uploadError := none }

/-- `tc.id.startsWith("MANUAL-")`, the identity convention distinguishing
manual entries from generated ones (page.tsx). -/
def isManual (tc : TestCase) : Bool := "MANUAL-".toList.isPrefixOf tc.id.toList

/- ### Test case merge engine (`performAiGeneration`, page.tsx 145-161) -/

/-- Insertion-ordered association list standing for the JS `Map` built in
append mode. -/
abbrev AList := List (String × TestCase)

/-- `Map.prototype.set`: an existing key keeps its position and gets the new
value, a fresh key is appended at the end. -/
def insertUpdate (m : AList) (k : String) (v : TestCase) : AList :=
  if ∃ p ∈ m, p.1 = k then m.map fun p => if p.1 = k then (k, v) else p
  else m ++ [(k, v)]

/-- Append/update merge (page.tsx 145-155): partition the current set into
manual and generated entries, build an id-keyed map from the existing
generated entries, overlay the new batch (each entry re-marked `pending`),
and return manual entries followed by the map's values in insertion order. -/
def mergeAppend (prev : List TestCase) (gen : List GenTestCase) : List TestCase :=
  let manualCases := prev.filter fun tc => isManual tc
  let existingAiCases := prev.filter fun tc => !(isManual tc)
  let aiCasesMap := existingAiCases.foldl (fun m tc => insertUpdate m tc.id tc) []
  let finalMap := gen.foldl (fun m g => insertUpdate m g.id (pend g)) aiCasesMap
  manualCases ++ finalMap.map Prod.snd

/-- Replace merge (page.tsx 156-161): manual entries kept as they are,
followed by the whole new batch marked `pending`. -/
def mergeOverride (prev : List TestCase) (gen : List GenTestCase) : List TestCase :=
  prev.filter (fun tc => isManual tc) ++ gen.map pend

/-- The two merge policies of `performAiGeneration`. -/
inductive MergeMode where
  | append
  | override
deriving DecidableEq, Repr

/-- The state update `performAiGeneration` applies to the current test-case
list for a given mode and generated batch. -/
def performAiGeneration : MergeMode → List TestCase → List GenTestCase → List TestCase
  | .append, prev, gen => mergeAppend prev gen
  | .override, prev, gen => mergeOverride prev gen

/- ### Priority mapping (`mapPriorityToAzureDevOps`, azure-devops-api.ts 92-99) -/

/-- `mapPriorityToAzureDevOps`: the switch over the runtime priority string,
with the `default` branch returning Medium's rank. -/
def mapPriorityToAzureDevOps (priority : String) : Nat :=
  if priority = "High" then 1
  else if priority = "Medium" then 2
  else if priority = "Low" then 3
  else 2

/- ### HTML escaping and step-XML serialisation (azure-devops-api.ts 101-154) -/

/-- `escapeHtml` (azure-devops-api.ts 101-109): five sequential global
replaces, ampersands first; `undefined` yields the empty string. -/
def escapeHtml : Option Str → Str
  | none => []
  | some u =>
    replaceChar '\'' "&#039;".toList
      (replaceChar '"' "&quot;".toList
        (replaceChar '>' "&gt;".toList
          (replaceChar '<' "&lt;".toList
            (replaceChar '&' "&amp;".toList u))))

/-- `prepareContentForXml` (azure-devops-api.ts 111-119): trim, short-circuit
on emptiness, convert literal newlines to `<br />`, then HTML-escape. -/
def prepareContentForXml : Option Str → Str
  | none => []
  | some text =>
    let trimmedText := jsTrim text
    if trimmedText.length = 0 then []
    else escapeHtml (some (replaceChar '\n' "<br />".toList trimmedText))

/-- The regex replace `step.replace(/^\d+\.\s*/, '')`: strip one leading run
of digits followed by a dot and any whitespace; leave the line unchanged
when that pattern is not present at the start. -/
def stripLeadingNum (s : Str) : Str :=
  let ds := s.takeWhile Char.isDigit
  let rest := s.dropWhile Char.isDigit
  if ds ≠ [] then
    match rest with
    | '.' :: r => r.dropWhile isJsWs
    | _ => s
  else s

/-- Decimal rendering of a step number, as JS string interpolation does. -/
def natToStr (n : Nat) : Str := Nat.toDigits 10 n

/-- `generateStepsXml` (azure-devops-api.ts 122-154): split the description
into trimmed, de-numbered, non-empty step actions; synthesise a generic step
when only an expected result exists; emit one `<step>` per action with the
expected result only on the final step, wrapped in a `<steps>` container
whose `last` attribute is the step count. -/
def generateStepsXml (description overallExpectedResult : Option Str) : Str :=
  let cleanedDescription := match description with
    | some d => if d = [] then [] else jsTrim d
    | none => []
  let cleanedExpectedResult := match overallExpectedResult with
    | some e => if e = [] then [] else jsTrim e
    | none => []
  let steps0 :=
    (((splitOnNl cleanedDescription).map jsTrim).map
        fun st => jsTrim (stripLeadingNum st)).filter
      fun st => st.length > 0
  let stepsArray :=
    if steps0.length = 0 ∧ cleanedExpectedResult.length > 0 then
      ["Verify expected result.".toList]
    else steps0
  if stepsArray.length = 0 then []
  else
    let stepXmlParts := stepsArray.enum.map fun p =>
      let stepNumber := p.1 + 1
      let actionContent := prepareContentForXml (some p.2)
      let stepExpectedResultText :=
        if stepNumber = stepsArray.length ∧ cleanedExpectedResult.length > 0 then
          cleanedExpectedResult
        else []
      let expectedResultContent := prepareContentForXml (some stepExpectedResultText)
      "<step id=\"".toList ++ natToStr stepNumber
        ++ "\" type=\"ActionStep\"><parameterizedString isformatted=\"true\">".toList
        ++ actionContent
        ++ "</parameterizedString><parameterizedString isformatted=\"true\">".toList
        ++ expectedResultContent
        ++ "</parameterizedString></step>".toList
    "<steps id=\"0\" last=\"".toList ++ natToStr stepXmlParts.length ++ "\">".toList
      ++ stepXmlParts.flatten ++ "</steps>".toList

/- ### Entity decoding stage of the rich-text normalizer
(`htmlToPlainText`, azure-devops-api.ts 27-33) -/

/-- The entity-decoding stage of `htmlToPlainText` (azure-devops-api.ts
27-33): six sequential global replaces decoding `&nbsp;`, `&amp;`, `&lt;`,
`&gt;`, `&quot;` and the numeric apostrophe entity `&#39;`. -/
def decodeHtmlEntities (s : Str) : Str :=
  replaceSub '&' "#39;".toList "'".toList
    (replaceSub '&' "quot;".toList "\"".toList
      (replaceSub '&' "gt;".toList ">".toList
        (replaceSub '&' "lt;".toList "<".toList
          (replaceSub '&' "amp;".toList "&".toList
            (replaceSub '&' "nbsp;".toList " ".toList s)))))

/- ### Code-fence stripping of the generation client
(`generateTestCases`, generate-tests flow, line
`jsonString.replace(/^```json\s*|\s*```\s*$/g, '').trim()`) -/

/-- Whether the second regex alternative `\s*```\s*$` matches at the start
of the remaining input `s`: a whitespace run, then three backticks, then
nothing but whitespace up to the end of the string. -/
def fenceTailHere (s : Str) : Bool :=
  let r := s.dropWhile isJsWs
  "```".toList.isPrefixOf r && (r.drop 3).all isJsWs

/-- The regex scan at positions past the start of the string, where the
anchored first alternative `^```json\s*` can no longer match: on a match of
`\s*```\s*$` the whole remainder is consumed and replaced by nothing. -/
def scanTail : Str → Str
  | [] => []
  | c :: rest => if fenceTailHere (c :: rest) then [] else c :: scanTail rest

/-- `jsonString.replace(/^```json\s*|\s*```\s*$/g, '')`: the first
alternative is tried once at position 0 (consuming a leading ```` ```json ````
marker and the whitespace after it), after which only the end-anchored
alternative can match. -/
def fenceReplace (s : Str) : Str :=
  if "```json".toList.isPrefixOf s then scanTail ((s.drop 7).dropWhile isJsWs)
  else scanTail s

/-- `cleanedJsonString` of `generateTestCases`: fence stripping, then trim.
JSON parsing and schema validation both consume this cleaned text. -/
def cleanedJsonString (s : Str) : Str := jsTrim (fenceReplace s)

/-- A model response that wraps the payload `t` in triple-backtick code
fencing. -/
def wrapFence (t : Str) : Str := "```json\n".toList ++ t ++ "\n```".toList

/- ### Upload orchestration (`uploadTestCaseToAzureDevOps`,
azure-devops-api.ts 157-257, and `handleUploadTestCases`, page.tsx 256-316) -/

/-- The Azure DevOps credentials record. -/
structure AzureDevOpsCredentials where
  organizationUrl : String
  projectName : String
  pat : String
deriving DecidableEq, Repr

/-- One hexadecimal digit, upper case as `encodeURIComponent` emits it. -/
def hexDigitChar (n : Nat) : Char :=
  if n < 10 then Char.ofNat ('0'.toNat + n) else Char.ofNat ('A'.toNat + n - 10)

/-- The UTF-8 bytes of a code point. -/
def utf8Bytes (n : Nat) : List Nat :=
  if n < 0x80 then [n]
  else if n < 0x800 then [0xC0 + n / 64, 0x80 + n % 64]
  else if n < 0x10000 then [0xE0 + n / 4096, 0x80 + n / 64 % 64, 0x80 + n % 64]
  else [0xF0 + n / 262144, 0x80 + n / 4096 % 64, 0x80 + n / 64 % 64, 0x80 + n % 64]

/-- The characters `encodeURIComponent` leaves unescaped. -/
def isURIUnreserved (c : Char) : Bool :=
  c.isAlpha || c.isDigit ||
    (c == '-' || c == '_' || c == '.' || c == '!' || c == '~' || c == '*' ||
      c == '\'' || c == '(' || c == ')')

/-- JS `encodeURIComponent`: unreserved characters pass through, everything
else is percent-encoded byte by byte. -/
def encodeURIComponent (s : String) : String :=
  String.mk ((s.toList.map fun c =>
    if isURIUnreserved c then [c]
    else ((utf8Bytes c.toNat).map fun b =>
      ['%', hexDigitChar (b / 16 % 16), hexDigitChar (b % 16)]).flatten).flatten)

/-- A failed tracker call as the code observes it: the HTTP status and the
error message resolved from the response body (`errorData.message`) or, when
that is unavailable, the status text. -/
structure ApiFailure where
  status : Nat
  message : String
deriving DecidableEq, Repr

/-- The tracker's responses for one upload run: the outcome of the
work-item creation `POST` for a given test case, and of the suite-link
`POST` for a given created work-item id (`none` = 2xx). -/
structure AdoResponses where
  createResp : TestCase → Except ApiFailure Nat
  linkResp : Nat → Option ApiFailure

/-- One network request issued during an upload run, for tracing which
calls were attempted. -/
inductive ApiCall where
  | createCall (tcId : String)
  | linkCall (workItemId : Nat)
deriving DecidableEq, Repr

/-- Whether a traced call is a work-item creation request. -/
def ApiCall.isCreate : ApiCall → Bool
  | .createCall _ => true
  | .linkCall _ => false

/-- `apiErrorMessage || 'Error'` of the creation failure branch. -/
def messageOrError (m : String) : String := if m = "" then "Error" else m

/-- The error thrown when the creation request fails
(azure-devops-api.ts 192-215), with the status-specific user hint. -/
def createErrorMessage (creds : AzureDevOpsCredentials) (tc : TestCase)
    (f : ApiFailure) : String :=
  let userHint :=
    if f.status = 404 then
      " This typically means the Organization URL ('" ++ creds.organizationUrl
        ++ "') or Project Name ('" ++ creds.projectName
        ++ "') in your credentials is incorrect, the API endpoint for creating test cases was not found, or the Azure DevOps project itself cannot be found. Please verify these in your authentication settings and in Azure DevOps."
    else if f.status = 401 then
      " Authentication failed. Please check your Personal Access Token (PAT) and ensure it's valid and has 'Work Items (read & write)' permissions."
    else if f.status = 403 then
      " Authorization failed. Your PAT may not have sufficient permissions for this project or to create work items. Ensure it has 'Work Items (read & write)' scope."
    else
      " Please check your network connection and Azure DevOps service status."
  "Failed to create test case work item \"" ++ tc.title ++ "\": "
    ++ messageOrError f.message ++ " (Status: " ++ toString f.status ++ ")."
    ++ userHint

/-- The error thrown when the suite-link request fails after a successful
creation (azure-devops-api.ts 229-254), with the status-specific user hint;
the 404 hint carries the static-suite guidance. -/
def suiteErrorMessage (creds : AzureDevOpsCredentials) (planId suiteId : String)
    (workItemId : Nat) (f : ApiFailure) : String :=
  let encodedProjectName := encodeURIComponent creds.projectName
  let userHint :=
    if f.status = 404 then
      " This often means the Test Plan ID ('" ++ planId ++ "') or Test Suite ID ('"
        ++ suiteId ++ "') is incorrect for project '" ++ encodedProjectName
        ++ "', the suite doesn't belong to the specified plan, or the API endpoint/version is not found. Crucially, ensure the Test Suite ID ('"
        ++ suiteId
        ++ "') refers to a STATIC test suite. Test cases cannot be manually added to query-based or requirement-based suites using this API. Also, verify your PAT has 'Test Management (read & write)' permissions. Please verify these details and their relationship in Azure DevOps. ADO Message: '"
        ++ f.message ++ "'"
    else if f.status = 401 ∨ f.status = 403 then
      " This could be a permission issue with your PAT. Ensure it has 'Test Management (read & write)' scopes. ADO Message: '"
        ++ f.message ++ "'"
    else if f.status = 400 then
      " This might indicate an invalid request format or invalid IDs (API version: 7.1). ADO Message: '"
        ++ f.message ++ "'"
    else
      " ADO Message: '" ++ f.message ++ "'"
  "Test case " ++ toString workItemId ++ " created, but failed to add to Test Suite "
    ++ suiteId ++ " in Plan " ++ planId ++ ". (Status: " ++ toString f.status ++ ")."
    ++ userHint

/-- `uploadTestCaseToAzureDevOps` (azure-devops-api.ts 157-257): issue the
creation request; on success issue the suite-link request; succeed with the
created work-item id only when both succeed, otherwise throw the
corresponding error message. The second component traces the requests
actually issued. -/
def uploadTestCaseToAzureDevOps (resp : AdoResponses) (tc : TestCase)
    (planId suiteId : String) (creds : AzureDevOpsCredentials) :
    Except String Nat × List ApiCall :=
  match resp.createResp tc with
  | .error f => (.error (createErrorMessage creds tc f), [.createCall tc.id])
  | .ok workItemId =>
    match resp.linkResp workItemId with
    | some f =>
      (.error (suiteErrorMessage creds planId suiteId workItemId f),
        [.createCall tc.id, .linkCall workItemId])
    | none => (.ok workItemId, [.createCall tc.id, .linkCall workItemId])

/-- The web-view URL stored on a successfully uploaded test case
(page.tsx 298). -/
def webUrl (creds : AzureDevOpsCredentials) (workItemId : Nat) : String :=
  creds.organizationUrl ++ "/" ++ encodeURIComponent creds.projectName
    ++ "/_workitems/edit/" ++ toString workItemId

/-- One iteration of the upload loop of `handleUploadTestCases`
(page.tsx 290-316): attempt the upload and update the test-case list by id
— `success` with tracker id and web URL, or `failed` with the error message
— appending the issued requests to the trace. -/
def uploadStep (resp : AdoResponses) (creds : AzureDevOpsCredentials)
    (planId suiteId : String) (acc : List TestCase × List ApiCall)
    (tc : TestCase) : List TestCase × List ApiCall :=
  match uploadTestCaseToAzureDevOps resp tc planId suiteId creds with
  | (.ok workItemId, calls) =>
    (acc.1.map fun t =>
      if t.id = tc.id then
        { t with
          uploadStatus := .success
          azureDevOpsId := some workItemId
          azureDevOpsUrl := some (webUrl creds workItemId)
          uploadError := none }
      else t,
    acc.2 ++ calls)
  | (.error msg, calls) =>
    (acc.1.map fun t =>
      if t.id = tc.id then { t with uploadStatus := .failed, uploadError := some msg }
      else t,
    acc.2 ++ calls)

/-- The upload loop of `handleUploadTestCases` (page.tsx 275-316): every
test case not already `success` is attempted in order; a success marks the
entry `success` with the tracker id and web URL, a failure marks it `failed`
with the error message, and the loop always continues to the next case.
Returns the final test-case list and the trace of issued requests. -/
def handleUploadTestCases (resp : AdoResponses) (creds : AzureDevOpsCredentials)
    (planId suiteId : String) (testCases : List TestCase) :
    List TestCase × List ApiCall :=
  let casesToUpload := testCases.filter fun tc => tc.uploadStatus ≠ UploadStatus.success
  casesToUpload.foldl (uploadStep resp creds planId suiteId) (testCases, [])

/- ### Spec-side description of the append/update merge (spec §4.4, §8) -/

/-- The keys of the association list standing for the JS `Map`. -/
def keys (m : AList) : List String := m.map Prod.fst

/-- The last entry of the batch carrying id `k`, if any: by the spec's
"new entries win ties by id", this is the batch entry that ends up stored
under `k`. -/
def lastMatch : List GenTestCase → String → Option GenTestCase
  | [], _ => none
  | g :: rest, k =>
    match lastMatch rest k with
    | some g' => some g'
    | none => if g.id = k then some g else none

/-- Spec §4.4 append/update, existing entries: an existing generated entry
is replaced by the batch entry with its id (re-marked `pending`), or kept
unchanged when its id is absent from the batch. -/
def updateFromBatch (gen : List GenTestCase) (tc : TestCase) : TestCase :=
  match lastMatch gen tc.id with
  | some g => pend g
  | none => tc

/-- Spec §4.4 append/update, new entries: batch entries whose id is not an
existing generated id are appended, one per id in order of first
appearance, each holding the last batch entry with that id, marked
`pending`. -/
def newGeneratedPart : List GenTestCase → List String → List TestCase
  | [], _ => []
  | g :: rest, ks =>
    if g.id ∈ ks then newGeneratedPart rest ks
    else pend ((lastMatch rest g.id).getD g) :: newGeneratedPart rest (ks ++ [g.id])

/-- The append/update merge as spec §4.4 words it: manual entries first,
then the existing generated entries updated from the batch or kept, then
the new-only generated entries. -/
def mergeAppendSpec (prev : List TestCase) (gen : List GenTestCase) : List TestCase :=
  let manualCases := prev.filter fun tc => isManual tc
  let existingAiCases := prev.filter fun tc => !(isManual tc)
  manualCases ++ existingAiCases.map (updateFromBatch gen)
    ++ newGeneratedPart gen (existingAiCases.map fun tc => tc.id)

/-- How one stored map entry looks after the whole batch is overlaid:
the value under key `k` becomes the last batch entry with id `k` (marked
`pending`) or stays what it was. -/
def overlayPair (gen : List GenTestCase) (p : String × TestCase) : String × TestCase :=
  (p.1, match lastMatch gen p.1 with
        | some g => pend g
        | none => p.2)

/- ### Concrete fixtures for the spec §8 examples -/

/-- The manual entry `MANUAL-1` of the spec §8 merge examples. -/
def exManual1 : TestCase :=
  { id := "MANUAL-1", title := "Manual Test Case 1", priority := "Medium",
    description := "", expectedResult := "" }

/-- The existing generated entry `TC-POS-1` (already uploaded, `success`). -/
def exPos1 : TestCase :=
  { id := "TC-POS-1", title := "Old positive one", priority := "High",
    description := "1. Old step.", expectedResult := "Old result.",
    azureDevOpsId := some 77, azureDevOpsUrl := some "https://dev.azure.com/org/P/_workitems/edit/77",
    uploadStatus := .success }

/-- The existing generated entry `TC-POS-2`. -/
def exPos2 : TestCase :=
  { id := "TC-POS-2", title := "Old positive two", priority := "Low",
    description := "1. Other step.", expectedResult := "Other result." }

/-- The batch entry updating `TC-POS-1`. -/
def exGen1 : GenTestCase :=
  { id := "TC-POS-1", title := "New positive one", priority := "Medium",
    description := "1. New step.", expectedResult := "New result." }

/-- The batch entry introducing `TC-POS-3`. -/
def exGen3 : GenTestCase :=
  { id := "TC-POS-3", title := "New positive three", priority := "Low",
    description := "1. Third step.", expectedResult := "Third result." }

/- ### Concrete fixtures for the upload-orchestrator example (spec §8) -/

/-- First pending test case of the three-item upload example. -/
def upA : TestCase :=
  { id := "TC-POS-1", title := "First", priority := "High",
    description := "1. Do a.", expectedResult := "A done." }

/-- Second pending test case; its suite-link call will return 404. -/
def upB : TestCase :=
  { id := "TC-POS-2", title := "Second", priority := "Medium",
    description := "1. Do b.", expectedResult := "B done." }

/-- Third pending test case. -/
def upC : TestCase :=
  { id := "TC-POS-3", title := "Third", priority := "Low",
    description := "1. Do c.", expectedResult := "C done." }

/-- Credentials for the upload example. -/
def exCreds : AzureDevOpsCredentials :=
  { organizationUrl := "https://dev.azure.com/org", projectName := "Proj", pat := "pat" }

/-- Tracker responses for the upload example: every creation succeeds
(work-item ids 101, 102, 103), and only the suite-link call for the second
created item fails, with a 404. -/
def exResponses : AdoResponses :=
  { createResp := fun tc =>
      if tc.id = "TC-POS-1" then .ok 101
      else if tc.id = "TC-POS-2" then .ok 102
      else .ok 103,
    linkResp := fun workItemId =>
      if workItemId = 102 then some { status := 404, message := "Not Found" } else none }

/-! ## Theorems -/

/-- C8: the priority-to-rank mapping is total and never fails: `High ↦ 1`,
`Medium ↦ 2`, `Low ↦ 3`, and every unrecognized value maps to `2`. -/
theorem priority_mapping_total :
    mapPriorityToAzureDevOps "High" = 1 ∧ mapPriorityToAzureDevOps "Medium" = 2 ∧
    mapPriorityToAzureDevOps "Low" = 3 ∧
    ∀ p : String, p ≠ "High" → p ≠ "Medium" → p ≠ "Low" →
      mapPriorityToAzureDevOps p = 2 := by
  refine ⟨rfl, rfl, rfl, ?_⟩
  intro p h1 h2 h3
  simp [mapPriorityToAzureDevOps, h1, h2, h3]

/-- C1: in either merge mode, every manual test case of the current set
appears in the merge result unchanged — generation and merge never
overwrite or remove manual entries. -/
theorem manual_entries_preserved (mode : MergeMode) (prev : List TestCase)
    (gen : List GenTestCase) (tc : TestCase) (hmem : tc ∈ prev)
    (hman : isManual tc = true) : tc ∈ performAiGeneration mode prev gen := by
  have hfil : tc ∈ prev.filter fun tc => isManual tc :=
    List.mem_filter.mpr ⟨hmem, hman⟩
  cases mode
  · exact List.mem_append_left _ hfil
  · exact List.mem_append_left _ hfil

/-- Witness for C1: the manual entry `MANUAL-1` survives the append-mode
merge of the spec §8 example unchanged. -/
theorem manual_entries_preserved_witness :
    exManual1 ∈ performAiGeneration .append [exPos1, exPos2, exManual1] [exGen1, exGen3] :=
  manual_entries_preserved .append _ _ exManual1 (by decide) (by decide)

/-- C7: replace-mode merge keeps the manual entries unchanged and replaces
all generated entries by exactly the new batch, every batch entry marked
`pending`; previously generated entries are discarded regardless of upload
state. On the spec §8 example, `TC-POS-2` is dropped and the result is
`[MANUAL-1, TC-POS-1(new), TC-POS-3]`. -/
theorem replace_merge_spec :
    (mergeOverride [exPos1, exPos2, exManual1] [exGen1, exGen3]
        = [exManual1, pend exGen1, pend exGen3]) ∧
    (∀ (prev : List TestCase) (gen : List GenTestCase),
        mergeOverride prev gen
          = prev.filter (fun tc => isManual tc) ++ gen.map pend) ∧
    (∀ (prev : List TestCase) (gen : List GenTestCase) (tc : TestCase),
        tc ∈ mergeOverride prev gen ↔
          (tc ∈ prev ∧ isManual tc = true) ∨ ∃ g ∈ gen, tc = pend g) ∧
    (∀ g : GenTestCase, (pend g).uploadStatus = .pending) := by
  refine ⟨by decide, fun prev gen => rfl, ?_, fun g => rfl⟩
  intro prev gen tc
  simp only [mergeOverride, List.mem_append, List.mem_filter, List.mem_map]
  constructor
  · rintro (⟨h1, h2⟩ | ⟨g, hg, he⟩)
    · exact Or.inl ⟨h1, h2⟩
    · exact Or.inr ⟨g, hg, he.symm⟩
  · rintro (⟨h1, h2⟩ | ⟨g, hg, he⟩)
    · exact Or.inl ⟨h1, h2⟩
    · exact Or.inr ⟨g, hg, he.symm⟩

/-- Every value stored in `insertUpdate m k v` is either `v` or a value
already stored in `m`. -/
theorem insertUpdate_values {Q : TestCase → Prop} {m : AList} {k : String}
    {v : TestCase} (hm : ∀ p ∈ m, Q p.2) (hv : Q v) :
    ∀ p ∈ insertUpdate m k v, Q p.2 := by
  intro p hp
  unfold insertUpdate at hp
  split at hp
  · obtain ⟨q, hq, hqe⟩ := List.mem_map.mp hp
    by_cases h : q.1 = k
    · rw [if_pos h] at hqe
      rw [← hqe]
      exact hv
    · rw [if_neg h] at hqe
      rw [← hqe]
      exact hm q hq
  · rcases List.mem_append.mp hp with h | h
    · exact hm p h
    · rw [List.mem_singleton.mp h]
      exact hv

/-- Values reached by folding `insertUpdate` over a list all satisfy any
predicate holding of the inserted values and of the initial map's values. -/
theorem foldl_insertUpdate_values {α : Type} (key : α → String) (val : α → TestCase)
    (Q : TestCase → Prop) :
    ∀ (l : List α) (m : AList), (∀ a ∈ l, Q (val a)) → (∀ p ∈ m, Q p.2) →
      ∀ p ∈ l.foldl (fun m a => insertUpdate m (key a) (val a)) m, Q p.2 := by
  intro l
  induction l with
  | nil => exact fun m _ hm p hp => hm p hp
  | cons a l ih =>
    intro m hl hm p hp
    exact ih _ (fun b hb => hl b (List.mem_cons_of_mem _ hb))
      (insertUpdate_values hm (hl a (List.mem_cons_self _ _))) p hp

/-- C10: every entry of an append-mode merge result either is an entry of
the previous set kept unchanged, or comes from the new batch re-marked
`pending` — in particular every entry taken from the batch has
`uploadStatus = pending`. Concretely, a batch entry updating an id whose
previous entry was already `success` still comes out `pending`. -/
theorem append_merge_marks_pending :
    (∀ (prev : List TestCase) (gen : List GenTestCase) (tc : TestCase),
        tc ∈ mergeAppend prev gen →
        tc ∈ prev ∨ ∃ g ∈ gen, tc = pend g ∧ tc.uploadStatus = .pending) ∧
    (exPos1.uploadStatus = .success ∧ mergeAppend [exPos1] [exGen1] = [pend exGen1] ∧
      (pend exGen1).uploadStatus = .pending) := by
  constructor
  · intro prev gen tc htc
    rcases List.mem_append.mp htc with h | h
    · exact Or.inl (List.mem_filter.mp h).1
    · obtain ⟨p, hp, hpe⟩ := List.mem_map.mp h
      have := foldl_insertUpdate_values (fun g : GenTestCase => g.id) pend
        (fun v => v ∈ prev ∨ ∃ g ∈ gen, v = pend g ∧ v.uploadStatus = .pending)
        gen _ (fun g hg => Or.inr ⟨g, hg, rfl, rfl⟩)
        (foldl_insertUpdate_values (fun tc : TestCase => tc.id) id
          (fun v => v ∈ prev ∨ ∃ g ∈ gen, v = pend g ∧ v.uploadStatus = .pending)
          (prev.filter fun tc => !(isManual tc)) []
          (fun b hb => Or.inl (List.mem_filter.mp hb).1)
          (fun p hp => absurd hp (List.not_mem_nil p)))
        p hp
      rw [← hpe]
      exact this
  · exact ⟨rfl, by decide, rfl⟩

/-- C4: serializing the description `"1. Open page.\n2. Click button."`
with expected result `"Page loads."` yields a steps container whose `last`
attribute is `2`, whose first step has an empty expected-result slot, and
whose second, final step's expected-result slot contains `"Page loads."`. -/
theorem steps_xml_roundtrip :
    generateStepsXml (some "1. Open page.\n2. Click button.".toList)
        (some "Page loads.".toList)
      = ("<steps id=\"0\" last=\"2\">"
          ++ "<step id=\"1\" type=\"ActionStep\"><parameterizedString isformatted=\"true\">Open page.</parameterizedString><parameterizedString isformatted=\"true\"></parameterizedString></step>"
          ++ "<step id=\"2\" type=\"ActionStep\"><parameterizedString isformatted=\"true\">Click button.</parameterizedString><parameterizedString isformatted=\"true\">Page loads.</parameterizedString></step>"
          ++ "</steps>").toList := by
  decide

/-- Membership in the key list of an association list. -/
theorem mem_keys {m : AList} {k : String} : k ∈ keys m ↔ ∃ p ∈ m, p.1 = k := by
  simp [keys, List.mem_map]

/-- `Map.set` on a fresh key appends the binding. -/
theorem insertUpdate_of_not_mem {m : AList} {k : String} {v : TestCase}
    (h : k ∉ keys m) : insertUpdate m k v = m ++ [(k, v)] := by
  rw [insertUpdate, if_neg]
  exact fun he => h (mem_keys.mpr he)

/-- `Map.set` on a present key updates the binding in place. -/
theorem insertUpdate_of_mem {m : AList} {k : String} {v : TestCase}
    (h : k ∈ keys m) :
    insertUpdate m k v = m.map fun p => if p.1 = k then (k, v) else p := by
  rw [insertUpdate, if_pos]
  exact mem_keys.mp h

/-- In-place updating never changes the key list. -/
theorem keys_map_update (m : AList) (k : String) (v : TestCase) :
    keys (m.map fun p => if p.1 = k then (k, v) else p) = keys m := by
  unfold keys
  rw [List.map_map]
  apply List.map_congr_left
  intro p _
  by_cases h : p.1 = k
  · simp [h]
  · simp [h]

/-- A batch entry found by id carries that id. -/
theorem lastMatch_id : ∀ (l : List GenTestCase) (k : String) (g : GenTestCase),
    lastMatch l k = some g → g.id = k := by
  intro l
  induction l with
  | nil => intro k g h; simp [lastMatch] at h
  | cons a l ih =>
    intro k g h
    rw [lastMatch] at h
    cases hl : lastMatch l k with
    | some g' =>
      rw [hl] at h
      exact ih k g (hl.trans h)
    | none =>
      rw [hl] at h
      by_cases hk : a.id = k
      · rw [if_pos hk] at h
        cases h
        exact hk
      · rw [if_neg hk] at h
        cases h

/-- Folding `Map.set` over entries whose keys are fresh and mutually
distinct just appends their bindings in order. -/
theorem foldl_insertUpdate_fresh :
    ∀ (l : List TestCase) (m : AList),
      (keys m ++ l.map fun tc => tc.id).Nodup →
      l.foldl (fun m tc => insertUpdate m tc.id tc) m
        = m ++ l.map fun tc => (tc.id, tc) := by
  intro l
  induction l with
  | nil => intro m _; simp
  | cons tc l ih =>
    intro m hnd
    have hmem : tc.id ∉ keys m := by
      intro hin
      rcases List.nodup_append.mp hnd with ⟨_, _, hdis⟩
      exact hdis hin (List.mem_cons_self _ _)
    rw [List.foldl_cons, insertUpdate_of_not_mem hmem]
    have hk : keys (m ++ [(tc.id, tc)]) = keys m ++ [tc.id] := by simp [keys]
    have hnd' : (keys (m ++ [(tc.id, tc)]) ++ l.map fun tc => tc.id).Nodup := by
      rw [hk, List.append_assoc, List.singleton_append]
      exact hnd
    rw [ih _ hnd', List.append_assoc, List.singleton_append]
    rfl

/-- Overlaying a pair for a batch headed by an entry with a different id is
the same as overlaying for the tail batch. -/
theorem overlayPair_cons_ne {g : GenTestCase} (rest : List GenTestCase)
    {p : String × TestCase} (h : p.1 ≠ g.id) :
    overlayPair (g :: rest) p = overlayPair rest p := by
  have h' : g.id ≠ p.1 := fun he => h he.symm
  unfold overlayPair
  rw [lastMatch]
  cases hl : lastMatch rest p.1 with
  | some g' => rfl
  | none => rw [if_neg h']

/-- Folding the batch into the map: every stored key's value is overlaid
with the last batch entry carrying that key, and the batch entries with
fresh ids are appended, first occurrence fixing the position. -/
theorem foldl_insertUpdate_gen :
    ∀ (gen : List GenTestCase) (m : AList), (keys m).Nodup →
      gen.foldl (fun m g => insertUpdate m g.id (pend g)) m
        = m.map (overlayPair gen)
          ++ (newGeneratedPart gen (keys m)).map fun tc => (tc.id, tc) := by
  intro gen
  induction gen with
  | nil =>
    intro m _
    simp only [List.foldl_nil, newGeneratedPart, List.map_nil, List.append_nil]
    have : ∀ p ∈ m, overlayPair ([] : List GenTestCase) p = p := by
      intro p _
      unfold overlayPair
      rw [lastMatch]
    rw [List.map_congr_left this]
    exact (List.map_id m).symm
  | cons g rest ih =>
    intro m hnd
    by_cases hmem : g.id ∈ keys m
    · rw [List.foldl_cons, insertUpdate_of_mem hmem]
      have hk : keys (m.map fun p => if p.1 = g.id then (g.id, pend g) else p)
          = keys m := keys_map_update m g.id (pend g)
      rw [ih _ (hk ▸ hnd), hk, List.map_map]
      have hstep : newGeneratedPart (g :: rest) (keys m)
          = newGeneratedPart rest (keys m) := by
        rw [newGeneratedPart, if_pos hmem]
      rw [hstep]
      congr 1
      apply List.map_congr_left
      intro p _
      by_cases hpk : p.1 = g.id
      · show overlayPair rest (if p.1 = g.id then (g.id, pend g) else p)
          = overlayPair (g :: rest) p
        rw [if_pos hpk]
        unfold overlayPair
        rw [lastMatch, hpk]
        cases hl : lastMatch rest g.id with
        | some g' => rfl
        | none => rw [if_pos rfl]
      · show overlayPair rest (if p.1 = g.id then (g.id, pend g) else p)
          = overlayPair (g :: rest) p
        rw [if_neg hpk, overlayPair_cons_ne rest hpk]
    · rw [List.foldl_cons, insertUpdate_of_not_mem hmem]
      have hk : keys (m ++ [(g.id, pend g)]) = keys m ++ [g.id] := by simp [keys]
      have hnd' : (keys (m ++ [(g.id, pend g)])).Nodup := by
        rw [hk, List.nodup_append]
        exact ⟨hnd, List.nodup_singleton _, by
          intro a ha hb
          rw [List.mem_singleton.mp hb] at ha
          exact hmem ha⟩
      rw [ih _ hnd', hk]
      rw [List.map_append]
      have hhead : List.map (overlayPair rest) [(g.id, pend g)]
          = [(g.id, pend ((lastMatch rest g.id).getD g))] := by
        simp only [List.map_cons, List.map_nil]
        unfold overlayPair
        cases hl : lastMatch rest g.id with
        | some g' => rfl
        | none => rfl
      rw [hhead]
      have hnp : newGeneratedPart (g :: rest) (keys m)
          = pend ((lastMatch rest g.id).getD g)
            :: newGeneratedPart rest (keys m ++ [g.id]) := by
        rw [newGeneratedPart, if_neg hmem]
      rw [hnp, List.map_cons]
      have hid : (pend ((lastMatch rest g.id).getD g)).id = g.id := by
        cases hl : lastMatch rest g.id with
        | some g' => exact lastMatch_id rest g.id g' hl
        | none => rfl
      rw [hid, List.append_assoc, List.singleton_append]
      congr 1
      apply List.map_congr_left
      intro p hp
      have hpk : p.1 ≠ g.id := by
        intro he
        exact hmem (he ▸ mem_keys.mpr ⟨p, hp, rfl⟩)
      exact (overlayPair_cons_ne rest hpk).symm

/-- The append/update merge of the code coincides with the spec §4.4
description whenever the existing generated entries have pairwise distinct
ids. -/
theorem mergeAppend_eq_spec (prev : List TestCase) (gen : List GenTestCase)
    (hnd : ((prev.filter fun tc => !(isManual tc)).map fun tc => tc.id).Nodup) :
    mergeAppend prev gen = mergeAppendSpec prev gen := by
  unfold mergeAppend mergeAppendSpec
  dsimp only
  have hA : (prev.filter fun tc => !(isManual tc)).foldl
        (fun m tc => insertUpdate m tc.id tc) []
      = (prev.filter fun tc => !(isManual tc)).map fun tc => (tc.id, tc) := by
    have := foldl_insertUpdate_fresh (prev.filter fun tc => !(isManual tc)) []
      (by simpa [keys] using hnd)
    simpa using this
  rw [hA]
  have hkeys : keys ((prev.filter fun tc => !(isManual tc)).map fun tc => (tc.id, tc))
      = (prev.filter fun tc => !(isManual tc)).map fun tc => tc.id := by
    simp [keys, List.map_map]
  rw [foldl_insertUpdate_gen gen _ (by rw [hkeys]; exact hnd), hkeys]
  rw [List.map_append, ← List.append_assoc]
  congr 1
  congr 1
  · rw [List.map_map, List.map_map]
    apply List.map_congr_left
    intro tc _
    rfl
  · rw [List.map_map]
    exact List.map_id _

/-- C2: on the spec §8 example the append/update merge returns
`[MANUAL-1, TC-POS-1(updated), TC-POS-2(unchanged), TC-POS-3]` in that
order; and in general (for distinct existing generated ids) the result is
the manual entries first, then each existing generated entry updated from
the new batch (the last batch entry with its id winning ties) or kept
unchanged when absent from the batch, then the new-only generated entries
appended. -/
theorem append_merge_update_by_id :
    (mergeAppend [exPos1, exPos2, exManual1] [exGen1, exGen3]
        = [exManual1, pend exGen1, exPos2, pend exGen3]) ∧
    (∀ (prev : List TestCase) (gen : List GenTestCase),
        ((prev.filter fun tc => !(isManual tc)).map fun tc => tc.id).Nodup →
        mergeAppend prev gen = mergeAppendSpec prev gen) :=
  ⟨by decide, mergeAppend_eq_spec⟩

/-- A single-character global replace distributes over concatenation. -/
theorem replaceChar_append (c : Char) (r : Str) :
    ∀ a b : Str, replaceChar c r (a ++ b) = replaceChar c r a ++ replaceChar c r b := by
  intro a
  induction a with
  | nil => intro b; rfl
  | cons x xs ih =>
    intro b
    by_cases h : x = c
    · simp [replaceChar, h, ih]
    · simp [replaceChar, h, ih]

/-- After replacing `c` by a `c`-free text, `c` no longer occurs. -/
theorem not_mem_replaceChar_self {c : Char} {r : Str} (hr : c ∉ r) :
    ∀ s : Str, c ∉ replaceChar c r s := by
  intro s
  induction s with
  | nil => exact List.not_mem_nil c
  | cons x xs ih =>
    by_cases h : x = c
    · simp only [replaceChar, if_pos h]
      intro hmem
      rcases List.mem_append.mp hmem with h1 | h1
      · exact hr h1
      · exact ih h1
    · simp only [replaceChar, if_neg h]
      intro hmem
      rcases List.mem_cons.mp hmem with h1 | h1
      · exact h (h1.symm)
      · exact ih h1

/-- A character absent from the text and from the replacement stays absent
through a single-character replace. -/
theorem not_mem_replaceChar {x c : Char} {r : Str} (hr : x ∉ r) :
    ∀ {s : Str}, x ∉ s → x ∉ replaceChar c r s := by
  intro s
  induction s with
  | nil => exact fun _ => List.not_mem_nil x
  | cons y ys ih =>
    intro hs
    have hy : x ≠ y := fun he => hs (he ▸ List.mem_cons_self y ys)
    have hys : x ∉ ys := fun hm => hs (List.mem_cons_of_mem y hm)
    by_cases h : y = c
    · simp only [replaceChar, if_pos h]
      intro hmem
      rcases List.mem_append.mp hmem with h1 | h1
      · exact hr h1
      · exact ih hys h1
    · simp only [replaceChar, if_neg h]
      intro hmem
      rcases List.mem_cons.mp hmem with h1 | h1
      · exact hy h1
      · exact ih hys h1

/-- Escaping distributes over concatenation. -/
theorem escapeHtml_append (a b : Str) :
    escapeHtml (some (a ++ b)) = escapeHtml (some a) ++ escapeHtml (some b) := by
  simp [escapeHtml, replaceChar_append]

/-- A list is a prefix of itself extended by anything. -/
theorem isPrefixOf_append_self : ∀ (q b : Str), q.isPrefixOf (q ++ b) = true := by
  intro q
  induction q with
  | nil => intro b; simp [List.isPrefixOf]
  | cons x xs ih => intro b; simp [List.isPrefixOf, ih]

/-- A pattern placed between two contexts is found by the substring scan. -/
theorem containsSub_of_middle (p : Str) :
    ∀ a b : Str, containsSub p (a ++ p ++ b) = true := by
  intro a
  induction a with
  | nil =>
    intro b
    cases p with
    | nil =>
      cases b with
      | nil => rfl
      | cons y ys => simp [containsSub, List.isPrefixOf]
    | cons x xs =>
      simp only [List.nil_append, List.cons_append, containsSub, List.append_eq]
      rw [← List.cons_append, isPrefixOf_append_self]
      rfl
  | cons x xs ih =>
    intro b
    simp only [List.cons_append, containsSub, List.append_eq]
    rw [ih b]
    exact Bool.or_true _

/-- When a non-empty pattern occurs, its first character occurs. -/
theorem head_mem_of_containsSub {c : Char} {p : Str} :
    ∀ {s : Str}, containsSub (c :: p) s = true → c ∈ s := by
  intro s
  induction s with
  | nil => intro h; simp [containsSub, List.isEmpty] at h
  | cons x xs ih =>
    intro h
    rcases Bool.or_eq_true_iff.mp h with h1 | h1
    · simp only [List.isPrefixOf, Bool.and_eq_true] at h1
      rw [beq_iff_eq.mp h1.1]
      exact List.mem_cons_self x xs
    · exact List.mem_cons_of_mem x (ih h1)

/-- No raw `<` survives HTML escaping. -/
theorem not_mem_escapeHtml_lt (s : Str) : '<' ∉ escapeHtml (some s) := by
  unfold escapeHtml
  apply not_mem_replaceChar (by decide)
  apply not_mem_replaceChar (by decide)
  apply not_mem_replaceChar (by decide)
  exact not_mem_replaceChar_self (by decide) _

/-- HTML escaping introduces no newline. -/
theorem not_mem_escapeHtml_nl {s : Str} (h : '\n' ∉ s) : '\n' ∉ escapeHtml (some s) := by
  unfold escapeHtml
  apply not_mem_replaceChar (by decide)
  apply not_mem_replaceChar (by decide)
  apply not_mem_replaceChar (by decide)
  apply not_mem_replaceChar (by decide)
  exact not_mem_replaceChar (by decide) h

/-- C3 (amended): for every step action text whose trimmed form contains a
literal newline, the newline is converted to `<br />` *before* HTML
escaping, so the escaping encodes the break in entity form: the emitted
slot contains `&lt;br /&gt;` where the newline stood, contains no literal
`<br />` (no raw `<` at all), and no raw newline. -/
theorem newline_to_br_escaped (s : Str) (h : '\n' ∈ jsTrim s) :
    containsSub "&lt;br /&gt;".toList (prepareContentForXml (some s)) = true ∧
    containsSub "<br />".toList (prepareContentForXml (some s)) = false ∧
    '\n' ∉ prepareContentForXml (some s) := by
  have hne : jsTrim s ≠ [] := fun he => List.not_mem_nil _ (he ▸ h)
  have hres : prepareContentForXml (some s)
      = escapeHtml (some (replaceChar '\n' "<br />".toList (jsTrim s))) := by
    unfold prepareContentForXml
    dsimp only
    rw [if_neg (by rw [List.length_eq_zero]; exact hne)]
  rw [hres]
  obtain ⟨a, b, hab⟩ := List.append_of_mem h
  have hX : replaceChar '\n' "<br />".toList (jsTrim s)
      = replaceChar '\n' "<br />".toList a
        ++ ("<br />".toList ++ replaceChar '\n' "<br />".toList b) := by
    rw [hab, replaceChar_append]
    simp [replaceChar]
  refine ⟨?_, ?_, ?_⟩
  · rw [hX, escapeHtml_append, escapeHtml_append]
    rw [show escapeHtml (some "<br />".toList) = "&lt;br /&gt;".toList from by decide]
    rw [← List.append_assoc]
    exact containsSub_of_middle _ _ _
  · cases hc : containsSub "<br />".toList
        (escapeHtml (some (replaceChar '\n' "<br />".toList (jsTrim s)))) with
    | false => rfl
    | true => exact absurd (head_mem_of_containsSub hc) (not_mem_escapeHtml_lt _)
  · exact not_mem_escapeHtml_nl (not_mem_replaceChar_self (by decide) _)

/-- Witness for C3 (amended), at the input `"a\nb"`. -/
theorem newline_to_br_escaped_witness :
    containsSub "&lt;br /&gt;".toList (prepareContentForXml (some "a\nb".toList)) = true ∧
    containsSub "<br />".toList (prepareContentForXml (some "a\nb".toList)) = false ∧
    '\n' ∉ prepareContentForXml (some "a\nb".toList) :=
  newline_to_br_escaped "a\nb".toList (by decide)

/-- Counterexample to C3 as stated: for the action text `"a\nb"` the
emitted slot is `"a&lt;br /&gt;b"` — the break is escaped into entities and
the literal `<br />` does *not* appear in the emitted step XML. -/
theorem newline_br_not_literal_counterexample :
    prepareContentForXml (some "a\nb".toList) = "a&lt;br /&gt;b".toList ∧
    containsSub "<br />".toList (prepareContentForXml (some "a\nb".toList)) = false := by
  exact ⟨by decide, by decide⟩

/-- A literal-pattern replace leaves a pattern-free text unchanged
(fuelled worker version). -/
theorem replaceSubAux_eq_self {p : Char} {ps rep : Str} :
    ∀ (fuel : Nat) (s : Str), containsSub (p :: ps) s = false →
      replaceSubAux p ps rep fuel s = s := by
  intro fuel
  induction fuel with
  | zero => intro s _; rfl
  | succ n ih =>
    intro s hs
    cases s with
    | nil => rfl
    | cons c rest =>
      simp only [containsSub, Bool.or_eq_false_iff] at hs
      simp [replaceSubAux, hs.1, ih rest hs.2]

/-- A literal-pattern replace leaves a pattern-free text unchanged. -/
theorem replaceSub_eq_self (p : Char) (ps rep s : Str)
    (h : containsSub (p :: ps) s = false) : replaceSub p ps rep s = s :=
  replaceSubAux_eq_self s.length s h

/-- C9 (amended): the entity-decoding stage decodes the six entity texts it
replaces — `&nbsp;`, `&amp;`, `&lt;`, `&gt;`, `&quot;` and the numeric
apostrophe entity `&#39;` — into their characters, and leaves any text
containing none of those six patterns (every unknown entity, `&apos;`
among them) unchanged. -/
theorem entity_decoding :
    decodeHtmlEntities "&nbsp;".toList = " ".toList ∧
    decodeHtmlEntities "&amp;".toList = "&".toList ∧
    decodeHtmlEntities "&lt;".toList = "<".toList ∧
    decodeHtmlEntities "&gt;".toList = ">".toList ∧
    decodeHtmlEntities "&quot;".toList = "\"".toList ∧
    decodeHtmlEntities "&#39;".toList = "'".toList ∧
    (∀ s : Str,
      containsSub "&nbsp;".toList s = false →
      containsSub "&amp;".toList s = false →
      containsSub "&lt;".toList s = false →
      containsSub "&gt;".toList s = false →
      containsSub "&quot;".toList s = false →
      containsSub "&#39;".toList s = false →
      decodeHtmlEntities s = s) := by
  refine ⟨by decide, by decide, by decide, by decide, by decide, by decide, ?_⟩
  intro s h1 h2 h3 h4 h5 h6
  unfold decodeHtmlEntities
  rw [replaceSub_eq_self '&' "nbsp;".toList " ".toList s h1,
    replaceSub_eq_self '&' "amp;".toList "&".toList s h2,
    replaceSub_eq_self '&' "lt;".toList "<".toList s h3,
    replaceSub_eq_self '&' "gt;".toList ">".toList s h4,
    replaceSub_eq_self '&' "quot;".toList "\"".toList s h5,
    replaceSub_eq_self '&' "#39;".toList "'".toList s h6]

/-- Counterexample to C9 as stated: the entity `&apos;` is *not* decoded
into an apostrophe — it passes through unchanged (the code decodes the
numeric form `&#39;` instead). -/
theorem apos_entity_not_decoded :
    decodeHtmlEntities "&apos;".toList = "&apos;".toList ∧
    decodeHtmlEntities "&apos;".toList ≠ "'".toList :=
  ⟨by decide, by decide⟩

/-- Dropping a prefix keeps only members of the original list. -/
theorem mem_of_mem_dropWhile {p : Char → Bool} {x : Char} {l : Str}
    (h : x ∈ l.dropWhile p) : x ∈ l :=
  List.Sublist.mem h (List.dropWhile_sublist p)

/-- If a non-empty pattern is a prefix, its head is a member. -/
theorem head_mem_of_isPrefixOf {c : Char} {p t : Str}
    (h : (c :: p).isPrefixOf t = true) : c ∈ t := by
  cases t with
  | nil => simp [List.isPrefixOf] at h
  | cons d u =>
    simp only [List.isPrefixOf, Bool.and_eq_true] at h
    rw [beq_iff_eq.mp h.1]
    exact List.mem_cons_self d u

/-- The end-anchored fence alternative cannot match inside backtick-free
text. -/
theorem fenceTailHere_false {s : Str} (h : '`' ∉ s) : fenceTailHere s = false := by
  unfold fenceTailHere
  cases hr : List.dropWhile isJsWs s with
  | nil => decide
  | cons d u =>
    dsimp only
    have hd : d ∈ s := mem_of_mem_dropWhile (hr ▸ List.mem_cons_self d u)
    have hdne : ('`' == d) = false :=
      beq_eq_false_iff_ne.mpr fun he => h (he ▸ hd)
    have h3 : "```".toList = '`' :: '`' :: '`' :: [] := rfl
    rw [h3]
    simp [List.isPrefixOf, hdne]

/-- Past position 0, the scan leaves backtick-free text untouched. -/
theorem scanTail_eq_self : ∀ {s : Str}, '`' ∉ s → scanTail s = s := by
  intro s
  induction s with
  | nil => intro _; rfl
  | cons c rest ih =>
    intro h
    rw [scanTail, fenceTailHere_false h]
    simp only [Bool.false_eq_true, if_false]
    rw [ih fun hm => h (List.mem_cons_of_mem c hm)]

/-- Dropping leading whitespace is idempotent. -/
theorem dropWhile_dropWhile (p : Char → Bool) :
    ∀ l : Str, (l.dropWhile p).dropWhile p = l.dropWhile p := by
  intro l
  induction l with
  | nil => rfl
  | cons c u ih =>
    by_cases hc : p c = true
    · rw [List.dropWhile_cons, if_pos hc, ih]
    · rw [List.dropWhile_cons, if_neg hc, List.dropWhile_cons, if_neg hc]

/-- Trailing-trim of an all-whitespace text is empty. -/
theorem jsTrimEnd_allWs {l : Str} (h : l.all isJsWs = true) : jsTrimEnd l = [] := by
  unfold jsTrimEnd
  have : l.reverse.dropWhile isJsWs = [] :=
    List.dropWhile_eq_nil_iff.mpr fun x hx =>
      List.all_eq_true.mp h x (List.mem_reverse.mp hx)
  rw [this]
  rfl

/-- Trailing-trim keeps the head of a text that is not all whitespace. -/
theorem jsTrimEnd_cons {c : Char} {t : Str} (h : (c :: t).all isJsWs = false) :
    jsTrimEnd (c :: t) = c :: jsTrimEnd t := by
  unfold jsTrimEnd
  rw [List.reverse_cons, List.dropWhile_append]
  by_cases ht : t.reverse.dropWhile isJsWs = []
  · have htall : t.all isJsWs = true :=
      List.all_eq_true.mpr fun x hx =>
        List.dropWhile_eq_nil_iff.mp ht x (List.mem_reverse.mpr hx)
    have hc : isJsWs c = false := by
      rw [List.all_cons, htall, Bool.and_true] at h
      exact h
    rw [ht]
    simp [List.dropWhile_cons, hc]
  · rw [if_neg (by simp [List.isEmpty_iff, ht]), List.reverse_append]
    rfl

/-- Start-trimming a text with no leading whitespace (in particular an
already start-trimmed one) after end-trimming it changes nothing. -/
theorem jsTrimStart_jsTrimEnd {l : Str} (h : jsTrimStart l = l) :
    jsTrimStart (jsTrimEnd l) = jsTrimEnd l := by
  cases l with
  | nil => rfl
  | cons c u =>
    have hc : isJsWs c = false := by
      cases hcc : isJsWs c with
      | false => rfl
      | true =>
        exfalso
        unfold jsTrimStart at h
        rw [List.dropWhile_cons, if_pos hcc] at h
        have hle := (List.dropWhile_sublist (l := u) isJsWs).length_le
        rw [h, List.length_cons] at hle
        omega
    have hall : (c :: u).all isJsWs = false := by
      rw [List.all_cons, hc]
      rfl
    rw [jsTrimEnd_cons hall]
    unfold jsTrimStart
    rw [List.dropWhile_cons, hc]
    simp

/-- Trailing-trim is idempotent. -/
theorem jsTrimEnd_idem (l : Str) : jsTrimEnd (jsTrimEnd l) = jsTrimEnd l := by
  unfold jsTrimEnd
  rw [List.reverse_reverse, dropWhile_dropWhile]

/-- JS `trim` is idempotent. -/
theorem jsTrim_idem (t : Str) : jsTrim (jsTrim t) = jsTrim t := by
  have h1 : jsTrimStart (jsTrimStart t) = jsTrimStart t := dropWhile_dropWhile isJsWs t
  unfold jsTrim
  rw [jsTrimStart_jsTrimEnd h1, jsTrimEnd_idem]

/-- Scanning backtick-free text followed by the closing fence removes the
fence together with the trailing whitespace before it. -/
theorem scanTail_fence : ∀ (t : Str), '`' ∉ t →
    scanTail (t ++ "\n```".toList) = jsTrimEnd t := by
  intro t
  induction t with
  | nil => intro _; decide
  | cons c t ih =>
    intro h
    have hct : '`' ∉ t := fun hm => h (List.mem_cons_of_mem c hm)
    rw [List.cons_append, scanTail]
    by_cases hall : (c :: t).all isJsWs = true
    · have hdw : (c :: (t ++ "\n```".toList)).dropWhile isJsWs = "```".toList := by
        rw [← List.cons_append, List.dropWhile_append]
        have hnil : (c :: t).dropWhile isJsWs = [] :=
          List.dropWhile_eq_nil_iff.mpr fun x hx => List.all_eq_true.mp hall x hx
        rw [hnil]
        decide
      have hf : fenceTailHere (c :: (t ++ "\n```".toList)) = true := by
        unfold fenceTailHere
        rw [hdw]
        decide
      rw [hf]
      simp only [if_true]
      exact (jsTrimEnd_allWs hall).symm
    · have hallf : (c :: t).all isJsWs = false := by
        cases hb : (c :: t).all isJsWs with
        | true => exact absurd hb hall
        | false => rfl
      have hf : fenceTailHere (c :: (t ++ "\n```".toList)) = false := by
        unfold fenceTailHere
        rw [← List.cons_append, List.dropWhile_append]
        have hne : (c :: t).dropWhile isJsWs ≠ [] := by
          intro hnil
          have : (c :: t).all isJsWs = true :=
            List.all_eq_true.mpr (List.dropWhile_eq_nil_iff.mp hnil)
          rw [this] at hallf
          exact Bool.noConfusion hallf
        obtain ⟨d, u, hdu⟩ := List.exists_cons_of_ne_nil hne
        have hd : d ∈ c :: t := mem_of_mem_dropWhile (hdu ▸ List.mem_cons_self d u)
        have hdne : ('`' == d) = false :=
          beq_eq_false_iff_ne.mpr fun he => h (he.symm ▸ hd)
        rw [hdu, if_neg (by simp), List.cons_append]
        have h3 : "```".toList = '`' :: '`' :: '`' :: [] := rfl
        rw [h3]
        simp [List.isPrefixOf, hdne]
      rw [hf]
      simp only [Bool.false_eq_true, if_false]
      rw [ih hct, (jsTrimEnd_cons hallf)]

/-- C5: wrapping a backtick-free payload in the ```` ```json ```` code
fence yields the same cleaned string as the unwrapped payload, so JSON
parsing and schema validation — which consume only the cleaned string —
produce the same sequence of test cases for both responses. -/
theorem fence_wrapping_irrelevant (t : Str) (h : '`' ∉ t) :
    cleanedJsonString (wrapFence t) = cleanedJsonString t := by
  have hpre_false : ("```json".toList.isPrefixOf t) = false := by
    cases hb : "```json".toList.isPrefixOf t with
    | false => rfl
    | true => exact absurd (head_mem_of_isPrefixOf hb) h
  have hrhs : cleanedJsonString t = jsTrim t := by
    unfold cleanedJsonString fenceReplace
    rw [hpre_false]
    simp only [Bool.false_eq_true, if_false]
    rw [scanTail_eq_self h]
  rw [hrhs]
  have hwrap : wrapFence t = "```json".toList ++ ('\n' :: (t ++ "\n```".toList)) := rfl
  unfold cleanedJsonString fenceReplace
  rw [hwrap, isPrefixOf_append_self]
  simp only [if_true]
  rw [show (7 : Nat) = ("```json".toList).length from rfl, List.drop_left]
  rw [List.dropWhile_cons, if_pos (by decide), List.dropWhile_append]
  by_cases hdt : (t.dropWhile isJsWs).isEmpty = true
  · rw [if_pos hdt]
    have he : t.dropWhile isJsWs = [] := List.isEmpty_iff.mp hdt
    have hjt : jsTrim t = [] := by
      unfold jsTrim jsTrimStart
      rw [he]
      rfl
    rw [hjt]
    decide
  · rw [if_neg hdt]
    have hbt : '`' ∉ t.dropWhile isJsWs := fun hm => h (mem_of_mem_dropWhile hm)
    rw [scanTail_fence _ hbt]
    exact jsTrim_idem t

/-- Witness for C5, at the payload `"[1, 2]"`. -/
theorem fence_wrapping_irrelevant_witness :
    cleanedJsonString (wrapFence "[1, 2]".toList) = cleanedJsonString "[1, 2]".toList :=
  fence_wrapping_irrelevant "[1, 2]".toList (by decide)

/-- Every upload attempt issues exactly one creation request, whatever its
outcome. -/
theorem uploadTC_create_calls (resp : AdoResponses) (tc : TestCase)
    (planId suiteId : String) (creds : AzureDevOpsCredentials) :
    (uploadTestCaseToAzureDevOps resp tc planId suiteId creds).2.filter ApiCall.isCreate
      = [ApiCall.createCall tc.id] := by
  unfold uploadTestCaseToAzureDevOps
  cases resp.createResp tc with
  | error f => rfl
  | ok workItemId =>
    dsimp only
    cases resp.linkResp workItemId with
    | some f => rfl
    | none => rfl

/-- The trace accumulated by the upload loop is the concatenation of each
attempted item's requests, in order. -/
theorem foldl_uploadStep_trace (resp : AdoResponses) (creds : AzureDevOpsCredentials)
    (planId suiteId : String) :
    ∀ (l : List TestCase) (st : List TestCase × List ApiCall),
      (l.foldl (uploadStep resp creds planId suiteId) st).2
        = st.2 ++ (l.map fun tc =>
            (uploadTestCaseToAzureDevOps resp tc planId suiteId creds).2).flatten := by
  intro l
  induction l with
  | nil => intro st; simp
  | cons tc l ih =>
    intro st
    rw [List.foldl_cons, ih]
    have hstep : (uploadStep resp creds planId suiteId st tc).2
        = st.2 ++ (uploadTestCaseToAzureDevOps resp tc planId suiteId creds).2 := by
      unfold uploadStep
      cases hup : uploadTestCaseToAzureDevOps resp tc planId suiteId creds with
      | mk res calls =>
        cases res with
        | ok workItemId => rfl
        | error msg => rfl
    rw [hstep, List.map_cons, List.flatten_cons, List.append_assoc]

/-- Keeping only creation requests, each attempted item contributes its
one creation call. -/
theorem flatten_calls_filter (resp : AdoResponses) (creds : AzureDevOpsCredentials)
    (planId suiteId : String) :
    ∀ l : List TestCase,
      ((l.map fun tc =>
          (uploadTestCaseToAzureDevOps resp tc planId suiteId creds).2).flatten).filter
          ApiCall.isCreate
        = l.map fun tc => ApiCall.createCall tc.id := by
  intro l
  induction l with
  | nil => rfl
  | cons tc l ih =>
    rw [List.map_cons, List.flatten_cons, List.filter_append, ih,
      uploadTC_create_calls, List.map_cons, List.singleton_append]

/-- C6: a single item's failure does not halt the batch upload. In general
the loop issues one creation request per not-yet-successful test case; and
on the three-item example where item 2's suite-link call returns 404, all
three creation requests are attempted, the final statuses are
`[success, failed, success]`, and only the failed item's error string
contains the static-suite hint. -/
theorem upload_partial_failure :
    (∀ (resp : AdoResponses) (creds : AzureDevOpsCredentials)
        (planId suiteId : String) (testCases : List TestCase),
        (handleUploadTestCases resp creds planId suiteId testCases).2.filter
            ApiCall.isCreate
          = (testCases.filter fun tc => tc.uploadStatus ≠ UploadStatus.success).map
              fun tc => ApiCall.createCall tc.id) ∧
    ((handleUploadTestCases exResponses exCreds "789" "1011" [upA, upB, upC]).1.map
        (fun tc => tc.uploadStatus) = [.success, .failed, .success]) ∧
    ((handleUploadTestCases exResponses exCreds "789" "1011" [upA, upB, upC]).2.filter
        ApiCall.isCreate
      = [.createCall "TC-POS-1", .createCall "TC-POS-2", .createCall "TC-POS-3"]) ∧
    ((handleUploadTestCases exResponses exCreds "789" "1011" [upA, upB, upC]).1.map
        (fun tc => containsSub "STATIC test suite".toList (tc.uploadError.getD "").toList)
      = [false, true, false]) := by
  refine ⟨?_, by decide, by decide, by decide⟩
  intro resp creds planId suiteId testCases
  unfold handleUploadTestCases
  dsimp only
  rw [foldl_uploadStep_trace, List.nil_append, flatten_calls_filter]

end TestGenius
